import Mathlib

/-
Verification of the market-data export script (src/index.py).

Modelling conventions used throughout this file:
- Python floats are embedded as a sum of an exact rational, a signed
  infinity, and nan.  The float constructor on strings is modelled with
  ASCII whitespace stripping, underscore digit separators, the signed
  case-insensitive special literals inf, infinity and nan, and overflow
  of a finite literal past the double range to an infinity.  Finite
  values stay exact rationals: the binary rounding of a double, the
  underflow of tiny values to zero, the sign of negative zero, and
  stripping of whitespace beyond the six ASCII characters are not
  modelled; none of these changes any two-decimal rendering or any
  threshold comparison a claim mentions.
- Python None is embedded as Option.none where a value can be absent.
- Python dicts are embedded as insertion-ordered association lists; dict
  assignment keeps the position of an existing key, as CPython does.
- Fallible calls to external providers are embedded as explicit response
  datatypes that include a constructor for a raised exception.
-/

set_option autoImplicit false

namespace RobinhoodExport

/-- Test whether a character is a decimal digit, by code point. -/
def isDig (c : Char) : Bool := 48 ≤ c.toNat && c.toNat ≤ 57

/-- The decimal digit character for a value below ten. -/
def digitChar (d : ℕ) : Char := Char.ofNat (48 + d)

/-- Decimal digit characters of a positive number, most significant first.
The first argument is structural fuel; any fuel at least the argument
itself is enough. -/
def natDigitsAux : ℕ → ℕ → List Char
  | 0, _ => []
  | fuel + 1, n => if n = 0 then [] else natDigitsAux fuel (n / 10) ++ [digitChar (n % 10)]

/-- Decimal digit characters of a natural number, as Python prints it. -/
def natChars (n : ℕ) : List Char := if n = 0 then ['0'] else natDigitsAux n n

/-- Round a rational to the nearest integer, ties to even, which is the
rounding used when Python formats a value with two fractional digits. -/
def roundHalfEven (x : ℚ) : ℤ :=
  if x - ⌊x⌋ < (1 : ℚ) / 2 then ⌊x⌋
  else if (1 : ℚ) / 2 < x - ⌊x⌋ then ⌊x⌋ + 1
  else if ⌊x⌋ % 2 = 0 then ⌊x⌋ else ⌊x⌋ + 1

/-- The number of cents, in absolute value, that a two-decimal rendering
of a rational displays. -/
def fmt2Cents (q : ℚ) : ℕ := (roundHalfEven (|q| * 100)).toNat

/-- Character sequence of the Python two-decimal fixed-point rendering of
a value, as produced by a format specifier asking for two decimals. -/
def fmt2Chars (q : ℚ) : List Char :=
  (if q < 0 then ['-'] else []) ++
    natChars (fmt2Cents q / 100) ++
    '.' :: [digitChar (fmt2Cents q % 100 / 10), digitChar (fmt2Cents q % 100 % 10)]

/-- Python two-decimal fixed-point rendering of a rational value. -/
def fmt2 (q : ℚ) : String := String.mk (fmt2Chars q)

/-- Parse a decimal digit character. -/
def digit? (c : Char) : Option ℕ := if isDig c then some (c.toNat - 48) else none

/-- Split a character list at the first separator occurrence; the second
component is none when no separator occurs. -/
def splitOn (sep : Char → Bool) : List Char → List Char × Option (List Char)
  | [] => ([], none)
  | c :: rest =>
    if sep c then ([], some rest)
    else
      let r := splitOn sep rest
      (c :: r.1, r.2)

/-- Read an optional leading sign; true means negative. -/
def parseSign : List Char → Bool × List Char
  | '+' :: rest => (false, rest)
  | '-' :: rest => (true, rest)
  | l => (false, l)

/-- Value of an all-digit character list; the empty list has value zero,
and any non-digit character fails the parse. -/
def digitsVal (l : List Char) : Option ℕ :=
  l.foldl
    (fun acc c =>
      match acc, digit? c with
      | some n, some d => some (n * 10 + d)
      | _, _ => none)
    (some 0)

/-- Value of a nonempty all-digit character list. -/
def parseUInt (l : List Char) : Option ℕ := if l = [] then none else digitsVal l

/-- Parse the mantissa part of a float literal: digits with an optional
decimal point, where at least one digit must be present. -/
def parseMantissa (l : List Char) : Option ℚ :=
  let s := splitOn (fun c => c = '.') l
  match s.2 with
  | none => (parseUInt s.1).map (fun n => (n : ℚ))
  | some fp =>
    if s.1 = [] ∧ fp = [] then none
    else
      match digitsVal s.1, digitsVal fp with
      | some iv, some fv => some ((iv : ℚ) + (fv : ℚ) / (10 : ℚ) ^ fp.length)
      | _, _ => none

/-- The six ASCII whitespace characters the float constructor strips. -/
def isPySpace (c : Char) : Bool :=
  c = ' ' ∨ c = '\t' ∨ c = '\n' ∨ c = '\r' ∨ c = '\x0b' ∨ c = '\x0c'

/-- Strip leading and trailing whitespace, as the float constructor does
before parsing. -/
def pyStrip (l : List Char) : List Char :=
  ((l.dropWhile isPySpace).reverse.dropWhile isPySpace).reverse

/-- Walk the character list carrying the previous character: every
underscore must be preceded and followed by a digit. -/
def goUnd (prev : Char) : List Char → Bool
  | [] => true
  | c :: rest =>
    if c = '_' then
      match rest with
      | [] => false
      | d :: _ => isDig prev && isDig d && goUnd c rest
    else goUnd c rest

/-- The underscore rule of the float constructor: underscores may appear
only between two digits, so they may not lead the string either. -/
def underscoresOk : List Char → Bool
  | [] => true
  | c :: rest => if c = '_' then false else goUnd c rest

/-- A Python float value: an exact rational standing for a finite
double, a signed infinity, or nan. -/
inductive PyFloat : Type
  | finite (q : ℚ)
  | inf (neg : Bool)
  | nan
  deriving DecidableEq

/-- Magnitudes at least this bound round to an infinity when a decimal
literal is converted to a double: the midpoint between the largest
finite double and two to the power 1024, written as a decimal literal so
that evaluation needs no deep exponentiation; the theorem ovfBound_eq
below checks the literal against the power expression. -/
def ovfBound : ℚ :=
  ((179769313486231580793728971405303415079934132710037826936173778980444968292764750946649017977587207096330286416692887910946555547851940402630657488671505820681908902000708383676273854845817711531764475730270069855571366959622842914819860834936475292719074168444365510704342711559699508093042880177904174497792 : ℕ) : ℚ)

/-- Assemble a parsed sign, mantissa magnitude and decimal exponent into
a float value, overflowing to a signed infinity past the double range. -/
def mkFinite (neg : Bool) (mv : ℚ) (e : ℤ) : PyFloat :=
  let v := mv * (10 : ℚ) ^ e
  if ovfBound ≤ v then .inf neg
  else .finite ((if neg then -1 else 1) * v)

/-- Model of the Python float constructor on a string: strip ASCII
whitespace, validate and drop underscore digit separators, accept the
signed case-insensitive special literals inf, infinity and nan, else
parse optional sign, decimal mantissa and optional exponent, overflowing
to an infinity past the double range.  Returns none exactly when the
constructor raises ValueError on the modelled input class. -/
def pyFloat (s : String) : Option PyFloat :=
  let t := pyStrip s.data
  if underscoresOk t then
    let u := t.filter (fun c => c != '_')
    let p1 := parseSign u
    let low := p1.2.map Char.toLower
    if low = "inf".data ∨ low = "infinity".data then some (.inf p1.1)
    else if low = "nan".data then some .nan
    else
      let m := splitOn (fun c => c = 'e' ∨ c = 'E') p1.2
      match parseMantissa m.1 with
      | none => none
      | some mv =>
        match m.2 with
        | none => some (mkFinite p1.1 mv 0)
        | some el =>
          let p2 := parseSign el
          match parseUInt p2.2 with
          | none => none
          | some e => some (mkFinite p1.1 mv (if p2.1 then -(e : ℤ) else (e : ℤ)))
  else none

/-- The Python comparison of a float value against a finite positive
threshold: nan compares false, infinities by their sign. -/
def pyGe : PyFloat → ℚ → Bool
  | .finite q, t => decide (t ≤ q)
  | .inf neg, _ => !neg
  | .nan, _ => false

/-- Division of a float value by a finite positive scale. -/
def pyDiv : PyFloat → ℚ → PyFloat
  | .finite q, d => .finite (q / d)
  | .inf neg, _ => .inf neg
  | .nan, _ => .nan

/-- The two-decimal rendering of a float value: infinities and nan are
rendered verbatim, as a Python format specifier does. -/
def pyFmt2 : PyFloat → String
  | .finite q => fmt2 q
  | .inf false => "inf"
  | .inf true => "-inf"
  | .nan => "nan"

/-- Embedding of format_market_cap from src/index.py: a falsy input (None
or the empty string) and a parse failure give the sentinel; otherwise the
value is scaled by the largest of three inclusive thresholds and rendered
with two decimals next to the matching unit letter. -/
def format_market_cap : Option String → String × String
  | none => ("N/A", "")
  | some s =>
    if s = "" then ("N/A", "")
    else
      match pyFloat s with
      | none => ("N/A", "")
      | some cap =>
        if pyGe cap (10 ^ 12) then (pyFmt2 (pyDiv cap (10 ^ 12)), "T")
        else if pyGe cap (10 ^ 9) then (pyFmt2 (pyDiv cap (10 ^ 9)), "B")
        else if pyGe cap (10 ^ 6) then (pyFmt2 (pyDiv cap (10 ^ 6)), "M")
        else (pyFmt2 cap, "")

/-- Lookup in an association-list embedding of a Python dict. -/
def alookup {α : Type} : List (String × α) → String → Option α
  | [], _ => none
  | kv :: rest, k => if kv.1 = k then some kv.2 else alookup rest k

/-- Assignment into an association-list embedding of a Python dict: an
existing key keeps its position and gets the new value, a new key goes to
the end, as in CPython insertion order. -/
def dictInsert {α : Type} (d : List (String × α)) (k : String) (v : α) : List (String × α) :=
  if (alookup d k).isSome then d.map (fun kv => if kv.1 = k then (k, v) else kv)
  else d ++ [(k, v)]

/-- An element of the list a quote provider returns: a string, or a value
such as None on which the float constructor raises TypeError. -/
inductive PyPrice : Type
  | pstr (s : String)
  | pnone
  deriving DecidableEq

/-- Result of applying the Python float constructor to a provider list
element; none stands for a raised ValueError or TypeError. -/
def tryFloat : PyPrice → Option PyFloat
  | .pstr s => pyFloat s
  | .pnone => none

/-- Behaviour of the underlying get_latest_price call: an exception, a
value that is None or not a list, or a list of entries. -/
inductive FetchResult : Type
  | raises
  | notList
  | returnsList (l : List PyPrice)
  deriving DecidableEq

/-- The string stored for one zipped ticker-price pair in
fetch_latest_prices: a dollar-prefixed two-decimal rendering, or the
sentinel when the float constructor raises. -/
def priceEntryFmt (p : PyPrice) : String :=
  match tryFloat p with
  | some v => "$" ++ pyFmt2 v
  | none => "N/A"

/-- Embedding of fetch_latest_prices from src/index.py.  The provider
behaviour is passed explicitly.  An empty ticker list returns the empty
dict before any call; a raised exception is caught and replaced by the
total all-sentinel dict; a None or non-list or empty-list response leaves
the dict empty; a nonempty list is zipped positionally with the tickers. -/
def fetch_latest_prices (tickers : List String) (res : FetchResult) : List (String × String) :=
  if tickers = [] then []
  else
    match res with
    | .raises => tickers.foldl (fun d t => dictInsert d t "N/A") []
    | .notList => []
    | .returnsList l =>
      if l = [] then []
      else (tickers.zip l).foldl (fun d tp => dictInsert d tp.1 (priceEntryFmt tp.2)) []

/-- A record as handed to the merge loop or the watchlist extraction
loop: Python None, a non-dict value, or a dict embedded as an association
list of string fields. -/
inductive FundRec : Type
  | fnone
  | fnotdict
  | fdict (entries : List (String × String))
  deriving DecidableEq

/-- Whether the merge loop guard accepts a record: the record must be
truthy and a dict, so None, non-dicts and the empty dict are rejected. -/
def isTruthyDict : FundRec → Bool
  | .fdict entries => !entries.isEmpty
  | _ => false

/-- Whether a record is a dict other than None.  This is the reading of
the phrase a non-null dict; it also accepts the empty dict. -/
def isNonNullDict : FundRec → Bool
  | .fdict _ => true
  | _ => false

/-- Embedding of the watchlist extraction loop of src/index.py: every
dict record with a truthy symbol field contributes its symbol mapped to
its name field, which may be absent and is then stored as None. -/
def instrumentMapOf (items : List FundRec) : List (String × Option String) :=
  items.foldl
    (fun m i =>
      match i with
      | .fdict entries =>
        match alookup entries "symbol" with
        | some s => if s = "" then m else dictInsert m s (alookup entries "name")
        | none => m
      | _ => m)
    []

/-- Slicing loop of src/index.py expressed with structural fuel: any fuel
at least the list length gives the chunking the slice comprehension
computes.  A zero chunk size gives the empty list; the script only ever
uses the positive constant chunk size. -/
def chunksOfFuel {α : Type} (n : ℕ) : ℕ → List α → List (List α)
  | 0, _ => []
  | _ + 1, [] => []
  | fuel + 1, x :: xs =>
    if n = 0 then [] else (x :: xs).take n :: chunksOfFuel n fuel ((x :: xs).drop n)

/-- Consecutive chunks of at most n elements, preserving order, matching
the slice comprehension of src/index.py. -/
def chunksOf {α : Type} (n : ℕ) (l : List α) : List (List α) :=
  chunksOfFuel n l.length l

/-- The chunk size constant of src/index.py. -/
def CHUNK_SIZE : ℕ := 100

/-- Behaviour of one get_fundamentals chunk call: an exception, a flat
list of records, a dict envelope with a results list, or any other value
that contributes no records. -/
inductive ChunkResp : Type
  | craises
  | clist (records : List FundRec)
  | cenvelope (results : List FundRec)
  | cother
  deriving DecidableEq

/-- Records a chunk response contributes to the aggregate: a list is
extended as is, a truthy results envelope contributes its list, and any
other shape contributes nothing.  An empty envelope list is falsy in the
source and skipped, which also contributes nothing. -/
def normalizeChunk : ChunkResp → List FundRec
  | .craises => []
  | .clist l => l
  | .cenvelope l => l
  | .cother => []

/-- Embedding of the fundamentals chunk loop of src/index.py: chunk
requests are issued strictly in order, each response is normalized and
appended, and an exception from any chunk call is uncaught inside the
loop, aborting the whole aggregation: that is the none result. -/
def runChunks (provider : List String → ChunkResp) : List (List String) → Option (List FundRec)
  | [] => some []
  | c :: rest =>
    match provider c with
    | .craises => none
    | .clist l => (runChunks provider rest).map (fun r => l ++ r)
    | .cenvelope l => (runChunks provider rest).map (fun r => l ++ r)
    | .cother => runChunks provider rest

/-- One row of the final table.  The name is an Option because the merge
can store Python None there when a watchlist record had no name field. -/
structure OutputRow : Type where
  name : Option String
  symbol : String
  price : String
  mcapValue : String
  mcapUnit : String
  deriving DecidableEq

/-- The row the merge loop of src/index.py emits for one fundamentals
record, or none when the guard skips the record. -/
def rowOf (m : List (String × Option String)) (p : List (String × String)) :
    FundRec → Option OutputRow
  | .fdict entries =>
    if entries = [] then none
    else
      let ticker := (alookup entries "symbol").getD "N/A"
      let name : Option String :=
        match alookup m ticker with
        | some v => v
        | none => some ((alookup entries "name").getD "N/A")
      let price := (alookup p ticker).getD "N/A"
      let mc := format_market_cap (alookup entries "market_cap")
      some ⟨name, ticker, price, mc.1, mc.2⟩
  | _ => none

/-- One iteration of the merge loop of src/index.py: append one row when
the record passes the truthy-dict guard, resolving name, price and market
cap exactly as the loop body does. -/
def mergeStep (m : List (String × Option String)) (p : List (String × String))
    (acc : List OutputRow) (fund : FundRec) : List OutputRow :=
  match fund with
  | .fdict entries =>
    if entries = [] then acc
    else
      let ticker := (alookup entries "symbol").getD "N/A"
      let name : Option String :=
        match alookup m ticker with
        | some v => v
        | none => some ((alookup entries "name").getD "N/A")
      let price := (alookup p ticker).getD "N/A"
      let mc := format_market_cap (alookup entries "market_cap")
      acc ++ [⟨name, ticker, price, mc.1, mc.2⟩]
  | _ => acc

/-- Embedding of the merge loop of src/index.py: a fold of the loop body
over the aggregated fundamentals, starting from the empty row list. -/
def mergeRows (m : List (String × Option String)) (p : List (String × String))
    (funds : List FundRec) : List OutputRow :=
  funds.foldl (mergeStep m p) []

/-- The explicit column order the script fixes before publishing. -/
def outputColumns : List String := ["Name", "Symbol", "Price", "Marketcap Value", "Marketcap Unit"]

/-- Behaviour of the login call: an exception, a falsy result or a dict
without an access token, or a dict with one. -/
inductive LoginResp : Type
  | lraises
  | lfail
  | lok
  deriving DecidableEq

/-- Behaviour of the watchlist call: an exception, a dict envelope with a
results list, a plain list, or any other value which normalizes to the
empty instrument list. -/
inductive WatchResp : Type
  | wraises
  | wenvelope (results : List FundRec)
  | wlist (items : List FundRec)
  | wother
  deriving DecidableEq

/-- Terminal outcome of one orchestrator run. -/
inductive Outcome : Type
  | crashed
  | loginFailed
  | emptyWatchlist
  | noTickers
  | emptyResult
  | published (rows : List OutputRow)
  deriving DecidableEq

/-- Observable result of one orchestrator run: the outcome, whether the
publish step was invoked, and whether a logout was attempted. -/
structure RunResult : Type where
  outcome : Outcome
  publishCalled : Bool
  logoutAttempted : Bool
  deriving DecidableEq

/-- The external behaviours one orchestrator run can encounter, plus
whether the final logout call itself raises. -/
structure Env : Type where
  login : LoginResp
  watch : WatchResp
  price : FetchResult
  fund : List String → ChunkResp
  logoutFails : Bool

/-- The part of the run after the watchlist response is normalized to an
instrument list: emptiness check, extraction, price fetch, chunked
fundamentals fetch, merge, emptiness check, publish. -/
def runFromInstruments (priceRes : FetchResult) (fund : List String → ChunkResp)
    (items : List FundRec) : RunResult :=
  if items = [] then ⟨.emptyWatchlist, false, true⟩
  else
    let m := instrumentMapOf items
    let tickers := m.map Prod.fst
    if tickers = [] then ⟨.noTickers, false, true⟩
    else
      let prices := fetch_latest_prices tickers priceRes
      match runChunks fund (chunksOf CHUNK_SIZE tickers) with
      | none => ⟨.crashed, false, true⟩
      | some funds =>
        let rows := mergeRows m prices funds
        if rows = [] then ⟨.emptyResult, false, true⟩
        else ⟨.published rows, true, true⟩

/-- Embedding of export_24hr_market_to_csv_and_sheet from src/index.py.
Every branch carries logoutAttempted true because the final logout sits
in a finally block, and a logout failure is swallowed by the inner
try-except, so logoutFails influences nothing observable. -/
def export_24hr_market_to_csv_and_sheet (env : Env) : RunResult :=
  match env.login with
  | .lraises => ⟨.crashed, false, true⟩
  | .lfail => ⟨.loginFailed, false, true⟩
  | .lok =>
    match env.watch with
    | .wraises => ⟨.crashed, false, true⟩
    | .wenvelope rs => runFromInstruments env.price env.fund rs
    | .wlist is => runFromInstruments env.price env.fund is
    | .wother => runFromInstruments env.price env.fund []

/-- Exactly two digits after the decimal point. -/
def fracTail : List Char → Bool
  | [d1, d2] => isDig d1 && isDig d2
  | _ => false

/-- Tail of a two-decimal fixed-point literal: optional further integer
digits, then a point, then exactly two digits. -/
def tailNum : List Char → Bool
  | [] => false
  | c :: rest => if c = '.' then fracTail rest else isDig c && tailNum rest

/-- Body of a two-decimal fixed-point literal: at least one integer
digit, then a point, then exactly two digits. -/
def numBody : List Char → Bool
  | [] => false
  | c :: rest => isDig c && tailNum rest

/-- Recognizer for a two-decimal fixed-point string: an optional minus
sign, a nonempty run of digits, a point, and exactly two digits. -/
def isFixed2 (s : String) : Bool :=
  match s.data with
  | [] => false
  | c :: rest => if c = '-' then numBody rest else numBody (c :: rest)

/-- The schema invariant of one published row: price is the sentinel or a
dollar sign followed by a two-decimal fixed-point number, the market cap
value is the sentinel or a two-decimal fixed-point number, and the unit
is one of the four allowed strings. -/
def schemaOk (r : OutputRow) : Prop :=
  (r.price = "N/A" ∨ ∃ u, r.price = "$" ++ u ∧ isFixed2 u = true) ∧
    (r.mcapValue = "N/A" ∨ isFixed2 r.mcapValue = true) ∧
    r.mcapUnit ∈ (["", "M", "B", "T"] : List String)

/-- Concrete environment in which a run publishes a single row; used to
exhibit the schema invariant on an actual published table. -/
def envPub : Env :=
  ⟨.lok, .wlist [.fdict [("symbol", "A"), ("name", "X")]], .notList,
    fun _ => .clist [.fdict [("symbol", "A")]], false⟩

/-- Concrete environment whose fundamentals chunks all come back empty;
used to exhibit the empty-result outcome. -/
def envEmpty : Env :=
  ⟨.lok, .wlist [.fdict [("symbol", "A")]], .notList, fun _ => .clist [], false⟩

/-- Whether a string avoids parsing to an infinity or nan: it either
fails to parse or parses to a finite value. -/
def finiteParse (s : String) : Bool :=
  match pyFloat s with
  | some (.inf _) => false
  | some .nan => false
  | _ => true

/-- Whether a provider price entry avoids the non-finite float class. -/
def priceFinite : PyPrice → Bool
  | .pstr s => finiteParse s
  | .pnone => true

/-- Whether a fundamentals record carries no market-cap string of the
non-finite float class. -/
def fundCapFinite : FundRec → Bool
  | .fdict entries =>
    match alookup entries "market_cap" with
    | some s => finiteParse s
    | none => true
  | _ => true

/-- Whether every provider string an environment can feed the run avoids
the non-finite float class: all price list entries and all market-cap
fields of all chunk responses. -/
def envFinite (env : Env) : Prop :=
  (∀ l, env.price = .returnsList l → ∀ p ∈ l, priceFinite p = true) ∧
    (∀ c, ∀ f ∈ normalizeChunk (env.fund c), fundCapFinite f = true)

/-- Concrete environment whose single fundamentals record carries the
market-cap string inf; the run publishes a row whose market-cap value is
the literal string inf. -/
def envInf : Env :=
  ⟨.lok, .wlist [.fdict [("symbol", "A"), ("name", "X")]], .notList,
    fun _ => .clist [.fdict [("symbol", "A"), ("market_cap", "inf")]], false⟩

theorem ovfBound_eq : ovfBound = ((2 ^ 1024 - 2 ^ 970 : ℕ) : ℚ) := by
  norm_num [ovfBound]

theorem alookup_eq_none_iff {α : Type} (d : List (String × α)) (k : String) :
    alookup d k = none ↔ k ∉ d.map Prod.fst := by
  induction d with
  | nil => simp [alookup]
  | cons kv rest ih =>
    by_cases h : kv.1 = k
    · simp [alookup, h]
    · rw [alookup, if_neg h, ih]
      have hne : ¬k = kv.1 := fun e => h e.symm
      simp [hne]

theorem alookup_mem {α : Type} {d : List (String × α)} {k : String} {v : α}
    (h : alookup d k = some v) : (k, v) ∈ d := by
  induction d with
  | nil => simp [alookup] at h
  | cons kv rest ih =>
    by_cases hk : kv.1 = k
    · rw [alookup, if_pos hk] at h
      obtain ⟨a, b⟩ := kv
      obtain rfl : a = k := hk
      obtain rfl : b = v := by simpa using h
      exact List.mem_cons_self _ _
    · rw [alookup, if_neg hk] at h
      exact List.mem_cons_of_mem _ (ih h)

theorem alookup_append_of_none {α : Type} {a : List (String × α)} (b : List (String × α))
    {k : String} (h : alookup a k = none) : alookup (a ++ b) k = alookup b k := by
  induction a with
  | nil => simp
  | cons kv rest ih =>
    by_cases hk : kv.1 = k
    · rw [alookup, if_pos hk] at h; exact absurd h (by simp)
    · rw [alookup, if_neg hk] at h
      rw [List.cons_append, alookup, if_neg hk]
      exact ih h

theorem dictInsert_of_none {α : Type} {d : List (String × α)} {k : String} (v : α)
    (h : alookup d k = none) : dictInsert d k v = d ++ [(k, v)] := by
  simp [dictInsert, h]

theorem mem_dictInsert {α : Type} {d : List (String × α)} {k : String} {v : α}
    {p : String × α} (h : p ∈ dictInsert d k v) : p ∈ d ∨ p = (k, v) := by
  unfold dictInsert at h
  split at h
  · rw [List.mem_map] at h
    obtain ⟨q, hq, he⟩ := h
    by_cases hqk : q.1 = k
    · rw [if_pos hqk] at he; exact Or.inr he.symm
    · rw [if_neg hqk] at he; exact Or.inl (he ▸ hq)
  · rw [List.mem_append] at h
    rcases h with h | h
    · exact Or.inl h
    · exact Or.inr (by simpa using h)

theorem foldl_dictInsert_eq_append {α : Type} :
    ∀ (ps init : List (String × α)), (ps.map Prod.fst).Nodup →
      (∀ k ∈ ps.map Prod.fst, alookup init k = none) →
      ps.foldl (fun d kv => dictInsert d kv.1 kv.2) init = init ++ ps := by
  intro ps
  induction ps with
  | nil => intro init _ _; simp
  | cons kv rest ih =>
    intro init hnd hdisj
    have h0 : alookup init kv.1 = none := hdisj kv.1 (by simp)
    rw [List.foldl_cons, dictInsert_of_none kv.2 h0]
    have hnd' : (rest.map Prod.fst).Nodup := by
      rw [List.map_cons] at hnd; exact hnd.of_cons
    have hkv : kv.1 ∉ rest.map Prod.fst := by
      rw [List.map_cons] at hnd; exact (List.nodup_cons.mp hnd).1
    have hdisj' : ∀ k ∈ rest.map Prod.fst, alookup (init ++ [(kv.1, kv.2)]) k = none := by
      intro k hk
      have hne : k ≠ kv.1 := fun e => hkv (e ▸ hk)
      rw [alookup_append_of_none _ (hdisj k (by simp [hk]))]
      simp [alookup, Ne.symm hne]
    rw [ih (init ++ [(kv.1, kv.2)]) hnd' hdisj']
    simp

theorem mem_foldl_dictInsert {α β : Type} (key : β → String) (val : β → α) :
    ∀ (ps : List β) (init : List (String × α)) (p : String × α),
      p ∈ ps.foldl (fun d x => dictInsert d (key x) (val x)) init →
      p ∈ init ∨ ∃ x ∈ ps, p.2 = val x := by
  intro ps
  induction ps with
  | nil => intro init p hp; exact Or.inl hp
  | cons x rest ih =>
    intro init p hp
    rw [List.foldl_cons] at hp
    rcases ih _ p hp with h | ⟨y, hy, he⟩
    · rcases mem_dictInsert h with h | h
      · exact Or.inl h
      · exact Or.inr ⟨x, by simp, by simp [h]⟩
    · exact Or.inr ⟨y, by simp [hy], he⟩

theorem map_fst_zip_eq_take {α β : Type} :
    ∀ (l₁ : List α) (l₂ : List β), (l₁.zip l₂).map Prod.fst = l₁.take l₂.length := by
  intro l₁
  induction l₁ with
  | nil => intro l₂; simp
  | cons a as ih =>
    intro l₂
    cases l₂ with
    | nil => simp
    | cons b bs => simp [ih]

theorem mergeStep_eq (m : List (String × Option String)) (p : List (String × String))
    (acc : List OutputRow) (fund : FundRec) :
    mergeStep m p acc fund = acc ++ (rowOf m p fund).toList := by
  cases fund with
  | fnone => simp [mergeStep, rowOf]
  | fnotdict => simp [mergeStep, rowOf]
  | fdict entries =>
    by_cases he : entries = []
    · simp [mergeStep, rowOf, he]
    · simp [mergeStep, rowOf, he]

theorem mergeRows_eq_filterMap (m : List (String × Option String))
    (p : List (String × String)) (funds : List FundRec) :
    mergeRows m p funds = funds.filterMap (rowOf m p) := by
  suffices h : ∀ acc, funds.foldl (mergeStep m p) acc = acc ++ funds.filterMap (rowOf m p) by
    simpa using h []
  induction funds with
  | nil => intro acc; simp
  | cons f fs ih =>
    intro acc
    rw [List.foldl_cons, mergeStep_eq, ih, List.filterMap_cons]
    cases rowOf m p f <;> simp

theorem chunksOfFuel_congr {α : Type} (n : ℕ) :
    ∀ (f₁ f₂ : ℕ) (l : List α), l.length ≤ f₁ → l.length ≤ f₂ →
      chunksOfFuel n f₁ l = chunksOfFuel n f₂ l := by
  intro f₁
  induction f₁ with
  | zero =>
    intro f₂ l h1 _
    obtain rfl : l = [] := by simpa using List.length_eq_zero.mp (Nat.le_zero.mp h1)
    cases f₂ <;> simp [chunksOfFuel]
  | succ f ih =>
    intro f₂ l h1 h2
    cases l with
    | nil => cases f₂ <;> simp [chunksOfFuel]
    | cons x xs =>
      cases f₂ with
      | zero => simp at h2
      | succ f₂ =>
        simp only [chunksOfFuel]
        by_cases hn : n = 0
        · simp [hn]
        · rw [if_neg hn, if_neg hn]
          congr 1
          apply ih
          · rw [List.length_drop]
            simp only [List.length_cons] at h1 ⊢
            omega
          · rw [List.length_drop]
            simp only [List.length_cons] at h2 ⊢
            omega

theorem chunksOf_nil {α : Type} (n : ℕ) : chunksOf n ([] : List α) = [] := rfl

theorem chunksOf_cons_eq {α : Type} (n : ℕ) (l : List α) (hl : l ≠ []) (hn : n ≠ 0) :
    chunksOf n l = l.take n :: chunksOf n (l.drop n) := by
  obtain ⟨x, xs, rfl⟩ := List.exists_cons_of_ne_nil hl
  show chunksOfFuel n (x :: xs).length (x :: xs) = _
  rw [List.length_cons]
  simp only [chunksOfFuel, if_neg hn]
  congr 1
  apply chunksOfFuel_congr
  · rw [List.length_drop]
    simp only [List.length_cons]
    omega
  · exact le_refl _

theorem chunksOfFuel_flatten {α : Type} (n : ℕ) (hn : n ≠ 0) :
    ∀ (fuel : ℕ) (l : List α), l.length ≤ fuel → (chunksOfFuel n fuel l).flatten = l := by
  intro fuel
  induction fuel with
  | zero =>
    intro l h
    obtain rfl : l = [] := List.length_eq_zero.mp (Nat.le_zero.mp h)
    rfl
  | succ f ih =>
    intro l h
    cases l with
    | nil => rfl
    | cons x xs =>
      simp only [chunksOfFuel, if_neg hn, List.flatten_cons]
      have hle : ((x :: xs).drop n).length ≤ f := by
        rw [List.length_drop]
        simp only [List.length_cons] at h ⊢
        omega
      rw [ih ((x :: xs).drop n) hle]
      exact List.take_append_drop n (x :: xs)

theorem chunksOf_flatten {α : Type} (n : ℕ) (hn : n ≠ 0) (l : List α) :
    (chunksOf n l).flatten = l :=
  chunksOfFuel_flatten n hn l.length l (le_refl _)

theorem chunksOfFuel_length_le {α : Type} (n : ℕ) :
    ∀ (fuel : ℕ) (l : List α), ∀ c ∈ chunksOfFuel n fuel l, c.length ≤ n := by
  intro fuel
  induction fuel with
  | zero => intro l c hc; simp [chunksOfFuel] at hc
  | succ f ih =>
    intro l c hc
    cases l with
    | nil => simp [chunksOfFuel] at hc
    | cons x xs =>
      by_cases hn : n = 0
      · simp [chunksOfFuel, hn] at hc
      · rw [chunksOfFuel, if_neg hn] at hc
        rcases List.mem_cons.mp hc with rfl | hc
        · simp [Nat.min_le_left]
        · exact ih _ c hc

theorem chunksOf_length_le {α : Type} (n : ℕ) (l : List α) :
    ∀ c ∈ chunksOf n l, c.length ≤ n :=
  chunksOfFuel_length_le n l.length l

theorem chunksOf_map_length_250 {α : Type} (l : List α) (h : l.length = 250) :
    (chunksOf 100 l).map List.length = [100, 100, 50] := by
  have h1 : l ≠ [] := by intro e; rw [e] at h; simp at h
  rw [chunksOf_cons_eq 100 l h1 (by norm_num)]
  have hd1 : (l.drop 100).length = 150 := by simp [h]
  have h2 : l.drop 100 ≠ [] := by
    intro e; rw [e] at hd1; simp at hd1
  rw [chunksOf_cons_eq 100 _ h2 (by norm_num)]
  have hd2 : ((l.drop 100).drop 100).length = 50 := by simp [h]
  have h3 : (l.drop 100).drop 100 ≠ [] := by
    intro e; rw [e] at hd2; simp at hd2
  rw [chunksOf_cons_eq 100 _ h3 (by norm_num)]
  have hd3 : (((l.drop 100).drop 100).drop 100).length = 0 := by simp [h]
  obtain he : ((l.drop 100).drop 100).drop 100 = [] := List.length_eq_zero.mp hd3
  rw [he, chunksOf_nil]
  simp [List.length_take, h, hd1, hd2]

theorem runChunks_of_no_raise (provider : List String → ChunkResp) :
    ∀ chunks : List (List String), (∀ c ∈ chunks, provider c ≠ .craises) →
      runChunks provider chunks =
        some ((chunks.map fun c => normalizeChunk (provider c)).flatten) := by
  intro chunks
  induction chunks with
  | nil => intro _; rfl
  | cons c rest ih =>
    intro h
    have hc := h c (by simp)
    have hrest := ih fun d hd => h d (by simp [hd])
    cases hp : provider c with
    | craises => exact absurd hp hc
    | clist l => simp [runChunks, hp, hrest, normalizeChunk]
    | cenvelope l => simp [runChunks, hp, hrest, normalizeChunk]
    | cother => simp [runChunks, hp, hrest, normalizeChunk]

theorem isDig_digitChar {d : ℕ} (h : d < 10) : isDig (digitChar d) = true := by
  interval_cases d <;> decide

theorem ne_of_isDig {c x : Char} (h : isDig c = true) (hx : isDig x = false) : c ≠ x := by
  intro e
  rw [e, hx] at h
  exact Bool.false_ne_true h

theorem natDigitsAux_digits :
    ∀ (fuel n : ℕ), ∀ c ∈ natDigitsAux fuel n, isDig c = true := by
  intro fuel
  induction fuel with
  | zero => intro n c hc; simp [natDigitsAux] at hc
  | succ f ih =>
    intro n c hc
    by_cases hn : n = 0
    · simp [natDigitsAux, hn] at hc
    · rw [natDigitsAux, if_neg hn] at hc
      rcases List.mem_append.mp hc with hc | hc
      · exact ih _ c hc
      · obtain rfl : c = digitChar (n % 10) := by simpa using hc
        exact isDig_digitChar (Nat.mod_lt n (by norm_num))

theorem natChars_digits (n : ℕ) : ∀ c ∈ natChars n, isDig c = true := by
  intro c hc
  by_cases hn : n = 0
  · rw [natChars, if_pos hn] at hc
    obtain rfl : c = '0' := by simpa using hc
    decide
  · rw [natChars, if_neg hn] at hc
    exact natDigitsAux_digits n n c hc

theorem natChars_ne_nil (n : ℕ) : natChars n ≠ [] := by
  by_cases hn : n = 0
  · rw [natChars, if_pos hn]; simp
  · rw [natChars, if_neg hn]
    obtain ⟨m, rfl⟩ : ∃ m, n = m + 1 := ⟨n - 1, by omega⟩
    rw [natDigitsAux, if_neg hn]
    simp

theorem tailNum_digits_append {ds : List Char} (hds : ∀ c ∈ ds, isDig c = true)
    {d1 d2 : Char} (h1 : isDig d1 = true) (h2 : isDig d2 = true) :
    tailNum (ds ++ '.' :: [d1, d2]) = true := by
  induction ds with
  | nil => simp [tailNum, fracTail, h1, h2]
  | cons c cs ih =>
    have hc : isDig c = true := hds c (by simp)
    have hne : c ≠ '.' := ne_of_isDig hc (by decide)
    rw [List.cons_append, tailNum, if_neg hne, hc, ih fun x hx => hds x (by simp [hx])]
    rfl

theorem isFixed2_mk (l : List Char) :
    isFixed2 (String.mk l) =
      (match l with
       | [] => false
       | c :: rest => if c = '-' then numBody rest else numBody (c :: rest)) := rfl

theorem fmt2_isFixed2 (q : ℚ) : isFixed2 (fmt2 q) = true := by
  have hd1 : isDig (digitChar (fmt2Cents q % 100 / 10)) = true := isDig_digitChar (by omega)
  have hd2 : isDig (digitChar (fmt2Cents q % 100 % 10)) = true := isDig_digitChar (by omega)
  obtain ⟨c, cs, hcs⟩ := List.exists_cons_of_ne_nil (natChars_ne_nil (fmt2Cents q / 100))
  have hc : isDig c = true := natChars_digits _ c (by rw [hcs]; simp)
  have hcsd : ∀ x ∈ cs, isDig x = true := fun x hx =>
    natChars_digits _ x (by rw [hcs]; simp [hx])
  have hcne : c ≠ '-' := ne_of_isDig hc (by decide)
  have hbody :
      numBody (c :: (cs ++ '.' ::
        [digitChar (fmt2Cents q % 100 / 10), digitChar (fmt2Cents q % 100 % 10)])) = true := by
    rw [numBody, hc, tailNum_digits_append hcsd hd1 hd2]
    rfl
  by_cases hq : q < 0
  · have hch : fmt2Chars q = '-' :: c :: (cs ++ '.' ::
        [digitChar (fmt2Cents q % 100 / 10), digitChar (fmt2Cents q % 100 % 10)]) := by
      simp [fmt2Chars, if_pos hq, hcs]
    rw [fmt2, isFixed2_mk, hch]
    simp [hbody]
  · have hch : fmt2Chars q = c :: (cs ++ '.' ::
        [digitChar (fmt2Cents q % 100 / 10), digitChar (fmt2Cents q % 100 % 10)]) := by
      simp [fmt2Chars, if_neg hq, hcs]
    rw [fmt2, isFixed2_mk, hch]
    simp [hbody, hcne]

theorem format_market_cap_fst_ok (x : Option String)
    (hx : ∀ s, x = some s → finiteParse s = true) :
    (format_market_cap x).1 = "N/A" ∨ isFixed2 (format_market_cap x).1 = true := by
  cases x with
  | none => exact Or.inl rfl
  | some s =>
    have hf : finiteParse s = true := hx s rfl
    by_cases hs : s = ""
    · left; simp [format_market_cap, hs]
    · cases hp : pyFloat s with
      | none => left; simp [format_market_cap, hs, hp]
      | some cap =>
        cases cap with
        | finite q =>
          simp only [format_market_cap, if_neg hs, hp]
          split_ifs <;> exact Or.inr (fmt2_isFixed2 _)
        | inf neg => simp [finiteParse, hp] at hf
        | nan => simp [finiteParse, hp] at hf

theorem format_market_cap_snd_mem (x : Option String) :
    (format_market_cap x).2 ∈ (["", "M", "B", "T"] : List String) := by
  cases x with
  | none => simp [format_market_cap]
  | some s =>
    by_cases hs : s = ""
    · simp [format_market_cap, hs]
    · cases hp : pyFloat s with
      | none => simp [format_market_cap, hs, hp]
      | some cap =>
        simp only [format_market_cap, if_neg hs, hp]
        split_ifs <;> simp

theorem priceEntryFmt_ok (p : PyPrice) (hp : priceFinite p = true) :
    priceEntryFmt p = "N/A" ∨ ∃ u, priceEntryFmt p = "$" ++ u ∧ isFixed2 u = true := by
  cases p with
  | pnone => exact Or.inl rfl
  | pstr s =>
    cases ht : pyFloat s with
    | none => left; simp [priceEntryFmt, tryFloat, ht]
    | some v =>
      cases v with
      | finite q =>
        right
        exact ⟨fmt2 q, by simp [priceEntryFmt, tryFloat, ht, pyFmt2], fmt2_isFixed2 q⟩
      | inf neg => simp [priceFinite, finiteParse, ht] at hp
      | nan => simp [priceFinite, finiteParse, ht] at hp

theorem fetch_latest_prices_value_ok (tickers : List String) (res : FetchResult)
    (k v : String)
    (hres : ∀ l, res = .returnsList l → ∀ p ∈ l, priceFinite p = true)
    (h : (k, v) ∈ fetch_latest_prices tickers res) :
    v = "N/A" ∨ ∃ u, v = "$" ++ u ∧ isFixed2 u = true := by
  by_cases ht : tickers = []
  · rw [fetch_latest_prices.eq_def, if_pos ht] at h
    simp at h
  · cases res with
    | raises =>
      simp only [fetch_latest_prices, if_neg ht] at h
      rcases mem_foldl_dictInsert (fun t => t) (fun _ => "N/A") tickers [] (k, v) h with
        h | ⟨x, _, he⟩
      · simp at h
      · exact Or.inl he
    | notList =>
      simp only [fetch_latest_prices, if_neg ht] at h
      simp at h
    | returnsList l =>
      by_cases hl : l = []
      · simp only [fetch_latest_prices, if_neg ht, if_pos hl] at h
        simp at h
      · simp only [fetch_latest_prices, if_neg ht, if_neg hl] at h
        rcases mem_foldl_dictInsert Prod.fst (fun tp => priceEntryFmt tp.2)
          (tickers.zip l) [] (k, v) h with h | ⟨x, hx, he⟩
        · simp at h
        · obtain ⟨a, b⟩ := x
          have hb : b ∈ l := (List.of_mem_zip hx).2
          have he2 : v = priceEntryFmt b := he
          rw [he2]
          exact priceEntryFmt_ok b (hres l rfl b hb)

theorem runChunks_mem (provider : List String → ChunkResp) :
    ∀ (chunks : List (List String)) (funds : List FundRec),
      runChunks provider chunks = some funds →
      ∀ f ∈ funds, ∃ c ∈ chunks, f ∈ normalizeChunk (provider c) := by
  intro chunks
  induction chunks with
  | nil =>
    intro funds hrun f hf
    obtain rfl : ([] : List FundRec) = funds := by simpa [runChunks] using hrun
    simp at hf
  | cons c rest ih =>
    intro funds hrun f hf
    cases hp : provider c with
    | craises => rw [runChunks, hp] at hrun; exact absurd hrun (by simp)
    | clist l =>
      rw [runChunks, hp] at hrun
      obtain ⟨r, hr, rfl⟩ := Option.map_eq_some'.mp hrun
      rcases List.mem_append.mp hf with hfl | hfr
      · exact ⟨c, by simp, by simp [normalizeChunk, hp, hfl]⟩
      · obtain ⟨d, hd, hfd⟩ := ih r hr f hfr
        exact ⟨d, by simp [hd], hfd⟩
    | cenvelope l =>
      rw [runChunks, hp] at hrun
      obtain ⟨r, hr, rfl⟩ := Option.map_eq_some'.mp hrun
      rcases List.mem_append.mp hf with hfl | hfr
      · exact ⟨c, by simp, by simp [normalizeChunk, hp, hfl]⟩
      · obtain ⟨d, hd, hfd⟩ := ih r hr f hfr
        exact ⟨d, by simp [hd], hfd⟩
    | cother =>
      rw [runChunks, hp] at hrun
      obtain ⟨d, hd, hfd⟩ := ih funds hrun f hf
      exact ⟨d, by simp [hd], hfd⟩

theorem runFromInstruments_logout (priceRes : FetchResult) (fund : List String → ChunkResp)
    (items : List FundRec) : (runFromInstruments priceRes fund items).logoutAttempted = true := by
  simp only [runFromInstruments]
  split
  · rfl
  · split
    · rfl
    · split
      · rfl
      · split
        · rfl
        · rfl

theorem export_logout (env : Env) :
    (export_24hr_market_to_csv_and_sheet env).logoutAttempted = true := by
  obtain ⟨lg, w, pr, fd, lf⟩ := env
  cases lg with
  | lraises => rfl
  | lfail => rfl
  | lok =>
    cases w with
    | wraises => rfl
    | wenvelope rs => exact runFromInstruments_logout pr fd rs
    | wlist is => exact runFromInstruments_logout pr fd is
    | wother => exact runFromInstruments_logout pr fd []

theorem runFromInstruments_published_inv (priceRes : FetchResult)
    (fund : List String → ChunkResp) (items : List FundRec) (rows : List OutputRow)
    (h : (runFromInstruments priceRes fund items).outcome = .published rows) :
    ∃ funds,
      runChunks fund (chunksOf CHUNK_SIZE ((instrumentMapOf items).map Prod.fst)) = some funds ∧
      rows = mergeRows (instrumentMapOf items)
        (fetch_latest_prices ((instrumentMapOf items).map Prod.fst) priceRes) funds := by
  simp only [runFromInstruments] at h
  split at h
  · simp at h
  · split at h
    · simp at h
    · split at h
      · simp at h
      · rename_i funds heq
        split at h
        · simp at h
        · refine ⟨funds, heq, ?_⟩
          simp only [Outcome.published.injEq] at h
          exact h.symm

theorem export_published_inv (env : Env) (rows : List OutputRow)
    (h : (export_24hr_market_to_csv_and_sheet env).outcome = .published rows) :
    ∃ items funds,
      runChunks env.fund (chunksOf CHUNK_SIZE ((instrumentMapOf items).map Prod.fst)) =
        some funds ∧
      rows = mergeRows (instrumentMapOf items)
        (fetch_latest_prices ((instrumentMapOf items).map Prod.fst) env.price) funds := by
  obtain ⟨lg, w, pr, fd, lf⟩ := env
  cases lg with
  | lraises => simp [export_24hr_market_to_csv_and_sheet] at h
  | lfail => simp [export_24hr_market_to_csv_and_sheet] at h
  | lok =>
    cases w with
    | wraises => simp [export_24hr_market_to_csv_and_sheet] at h
    | wenvelope rs => exact ⟨rs, runFromInstruments_published_inv pr fd rs rows h⟩
    | wlist is => exact ⟨is, runFromInstruments_published_inv pr fd is rows h⟩
    | wother => exact ⟨[], runFromInstruments_published_inv pr fd [] rows h⟩

/-- C1 counterexample: the record that is an empty dict is a non-null
dict, yet the merge emits no row for it, so the claim that exactly one
row is emitted per fundamentals record that is a non-null dict fails. -/
theorem merge_fan_in_counterexample :
    isNonNullDict (FundRec.fdict []) = true ∧ mergeRows [] [] [FundRec.fdict []] = [] :=
  ⟨rfl, rfl⟩

/-- C1 (amended): the merge is a fan-in join on the fundamentals
sequence: it equals a filterMap over the fundamentals in order, one row
is emitted exactly for each record that is a truthy (non-null, non-empty)
dict, and on the concrete example the output is exactly the single Apple
row while TSLA, present only in the watchlist, produces no row. -/
theorem merge_fan_in_join (m : List (String × Option String)) (p : List (String × String))
    (funds : List FundRec) :
    mergeRows m p funds = funds.filterMap (rowOf m p) ∧
    (∀ f, (rowOf m p f).isSome = isTruthyDict f) ∧
    mergeRows [("AAPL", some "Apple"), ("TSLA", some "Tesla")] [("AAPL", "$150.00")]
        [.fdict [("symbol", "AAPL"), ("market_cap", "4440000000000.00")]] =
      [⟨some "Apple", "AAPL", "$150.00", "4.44", "T"⟩] ∧
    ((mergeRows [("AAPL", some "Apple"), ("TSLA", some "Tesla")] [("AAPL", "$150.00")]
        [.fdict [("symbol", "AAPL"), ("market_cap", "4440000000000.00")]]).all
      fun r => r.symbol != "TSLA") = true := by
  refine ⟨mergeRows_eq_filterMap m p funds, ?_, ?_, ?_⟩
  · intro f
    cases f with
    | fnone => rfl
    | fnotdict => rfl
    | fdict entries =>
      by_cases he : entries = []
      · simp [rowOf, isTruthyDict, he]
      · simp [rowOf, isTruthyDict, he]
  · with_unfolding_all rfl
  · with_unfolding_all rfl

/-- C2 counterexample: with two tickers and a provider returning a
one-element list, the result covers only the first ticker, so the key set
does not equal the input symbol set. -/
theorem fetch_latest_prices_totality_counterexample :
    fetch_latest_prices ["A", "B"] (.returnsList [.pstr "1.0"]) = [("A", "$1.00")] ∧
    "B" ∉ (fetch_latest_prices ["A", "B"] (.returnsList [.pstr "1.0"])).map Prod.fst := by
  have h : fetch_latest_prices ["A", "B"] (.returnsList [.pstr "1.0"]) = [("A", "$1.00")] := by
    with_unfolding_all rfl
  refine ⟨h, ?_⟩
  rw [h]
  simp

/-- C2 (amended): fetch_latest_prices never raises; when the provider
raises, every input symbol maps to the sentinel, so the key set equals
the input symbol set; when the provider returns None or a non-list, the
mapping is empty; when it returns a nonempty list, entries are matched
positionally and each zipped symbol maps to a formatted price or the
sentinel on parse failure, so the key set is the prefix of the input of
the length of the returned list. -/
theorem fetch_latest_prices_amended (tickers : List String) (l : List PyPrice)
    (hnd : tickers.Nodup) :
    fetch_latest_prices tickers .raises = tickers.map (fun t => (t, "N/A")) ∧
    fetch_latest_prices tickers .notList = [] ∧
    (l ≠ [] → fetch_latest_prices tickers (.returnsList l) =
      (tickers.zip l).map fun tp => (tp.1, priceEntryFmt tp.2)) ∧
    (l ≠ [] → (fetch_latest_prices tickers (.returnsList l)).map Prod.fst =
      tickers.take l.length) := by
  by_cases ht : tickers = []
  · subst ht
    refine ⟨by simp [fetch_latest_prices], by simp [fetch_latest_prices], ?_, ?_⟩ <;>
      intro hl <;> simp [fetch_latest_prices]
  · have h3 : l ≠ [] → fetch_latest_prices tickers (.returnsList l) =
        (tickers.zip l).map fun tp => (tp.1, priceEntryFmt tp.2) := by
      intro hl
      simp only [fetch_latest_prices, if_neg ht, if_neg hl]
      have h1 : (tickers.zip l).foldl (fun d tp => dictInsert d tp.1 (priceEntryFmt tp.2)) [] =
          ((tickers.zip l).map fun tp => (tp.1, priceEntryFmt tp.2)).foldl
            (fun d kv => dictInsert d kv.1 kv.2) [] :=
        (List.foldl_map (fun tp : String × PyPrice => (tp.1, priceEntryFmt tp.2))
          (fun d kv => dictInsert d kv.1 kv.2) (tickers.zip l) []).symm
      rw [h1, foldl_dictInsert_eq_append _ [] ?_ ?_]
      · simp
      · rw [List.map_map]
        have he : ((tickers.zip l).map
            (Prod.fst ∘ fun tp : String × PyPrice => (tp.1, priceEntryFmt tp.2))) =
            (tickers.zip l).map Prod.fst := rfl
        rw [he, map_fst_zip_eq_take]
        exact List.Nodup.sublist (List.take_sublist _ _) hnd
      · intro k _
        rfl
    refine ⟨?_, by simp [fetch_latest_prices, if_neg ht], h3, ?_⟩
    · simp only [fetch_latest_prices, if_neg ht]
      have h1 : tickers.foldl (fun d t => dictInsert d t "N/A") [] =
          (tickers.map fun t => (t, "N/A")).foldl (fun d kv => dictInsert d kv.1 kv.2) [] :=
        (List.foldl_map (fun t : String => (t, "N/A"))
          (fun d kv => dictInsert d kv.1 kv.2) tickers []).symm
      rw [h1, foldl_dictInsert_eq_append _ [] ?_ ?_]
      · simp
      · rw [List.map_map]
        have he : tickers.map (Prod.fst ∘ fun t : String => (t, "N/A")) = tickers :=
          List.map_id tickers
        rw [he]
        exact hnd
      · intro k _
        rfl
    · intro hl
      rw [h3 hl, List.map_map]
      exact map_fst_zip_eq_take tickers l

/-- C2 witness: the amended statement instantiated at two nodup tickers
and a one-element provider list. -/
theorem fetch_latest_prices_amended_witness :
    fetch_latest_prices ["A", "B"] .raises = [("A", "N/A"), ("B", "N/A")] ∧
    fetch_latest_prices ["A", "B"] .notList = [] ∧
    (fetch_latest_prices ["A", "B"] (.returnsList [.pstr "1.0"])).map Prod.fst =
      ["A", "B"].take 1 := by
  have h := fetch_latest_prices_amended ["A", "B"] [.pstr "1.0"] (by simp)
  exact ⟨by simpa using h.1, h.2.1, by simpa using h.2.2.2 (by simp)⟩

/-- C3: the fundamentals fetch partitions the symbols into consecutive
chunks of at most the chunk size of one hundred, in order, a 250-symbol
list yields chunk sizes 100, 100, 50 in that order, and when no chunk
call raises, the aggregate is the concatenation of the normalized
per-chunk results in chunk order, hence intra-chunk provider order. -/
theorem fetch_fundamentals_chunking (symbols : List String)
    (provider : List String → ChunkResp) :
    CHUNK_SIZE = 100 ∧
    (∀ c ∈ chunksOf CHUNK_SIZE symbols, c.length ≤ CHUNK_SIZE) ∧
    (chunksOf CHUNK_SIZE symbols).flatten = symbols ∧
    (symbols.length = 250 → (chunksOf CHUNK_SIZE symbols).map List.length = [100, 100, 50]) ∧
    ((∀ c, provider c ≠ .craises) →
      runChunks provider (chunksOf CHUNK_SIZE symbols) =
        some ((chunksOf CHUNK_SIZE symbols).map fun c => normalizeChunk (provider c)).flatten) :=
  ⟨rfl, chunksOf_length_le _ _, chunksOf_flatten _ (by decide) _,
    fun h => chunksOf_map_length_250 _ h,
    fun h => runChunks_of_no_raise _ _ fun c _ => h c⟩

/-- C3 witness: the chunking statement instantiated at a concrete list of
250 symbols and a provider that never raises. -/
theorem fetch_fundamentals_chunking_witness :
    (chunksOf CHUNK_SIZE (List.replicate 250 "A")).map List.length = [100, 100, 50] ∧
    runChunks (fun _ => ChunkResp.cother) (chunksOf CHUNK_SIZE (List.replicate 250 "A")) =
      some [] := by
  have h := fetch_fundamentals_chunking (List.replicate 250 "A") fun _ => ChunkResp.cother
  refine ⟨h.2.2.2.1 (List.length_replicate 250 "A"), ?_⟩
  rw [h.2.2.2.2 (fun c hc => ChunkResp.noConfusion hc)]
  have hz : ∀ L : List (List String),
      ((L.map fun c => normalizeChunk ChunkResp.cother).flatten : List FundRec) = [] := by
    intro L
    induction L with
    | nil => rfl
    | cons a as ih => simp [normalizeChunk, ih]
  rw [hz]

/-- C4: when the input parses to a value cap, the unit is chosen by
descending inclusive thresholds, the value is the scaled cap rendered
with two decimals, and at the exact boundary the larger unit wins, as on
the concrete trillion boundary input. -/
theorem format_market_cap_thresholds (s : String) (cap : ℚ)
    (h : pyFloat s = some (.finite cap)) :
    ((10 : ℚ) ^ 12 ≤ cap → format_market_cap (some s) = (fmt2 (cap / 10 ^ 12), "T")) ∧
    ((10 : ℚ) ^ 9 ≤ cap → cap < 10 ^ 12 →
      format_market_cap (some s) = (fmt2 (cap / 10 ^ 9), "B")) ∧
    ((10 : ℚ) ^ 6 ≤ cap → cap < 10 ^ 9 →
      format_market_cap (some s) = (fmt2 (cap / 10 ^ 6), "M")) ∧
    (cap < (10 : ℚ) ^ 6 → format_market_cap (some s) = (fmt2 cap, "")) ∧
    format_market_cap (some "1000000000000.00") = ("1.00", "T") := by
  have h0 : pyFloat "" = none := by with_unfolding_all rfl
  have hs : s ≠ "" := by
    intro e
    rw [e, h0] at h
    exact Option.noConfusion h
  have hTrue : ∀ t : ℚ, t ≤ cap → pyGe (PyFloat.finite cap) t = true := by
    intro t ht
    simp only [pyGe, decide_eq_true_eq]
    exact ht
  have hFalse : ∀ t : ℚ, cap < t → ¬pyGe (PyFloat.finite cap) t = true := by
    intro t ht
    simp only [pyGe, decide_eq_true_eq]
    exact not_le.mpr ht
  refine ⟨?_, ?_, ?_, ?_, by with_unfolding_all rfl⟩
  · intro h12
    simp only [format_market_cap, if_neg hs, h]
    rw [if_pos (hTrue _ h12)]
    rfl
  · intro h9 h12
    simp only [format_market_cap, if_neg hs, h]
    rw [if_neg (hFalse _ h12), if_pos (hTrue _ h9)]
    rfl
  · intro h6 h9
    simp only [format_market_cap, if_neg hs, h]
    rw [if_neg (hFalse _ (lt_trans h9 (by norm_num))), if_neg (hFalse _ h9),
      if_pos (hTrue _ h6)]
    rfl
  · intro h6
    simp only [format_market_cap, if_neg hs, h]
    rw [if_neg (hFalse _ (lt_trans h6 (by norm_num))),
      if_neg (hFalse _ (lt_trans h6 (by norm_num))), if_neg (hFalse _ h6)]
    rfl

/-- C4 witness: the threshold statement instantiated at a concrete value
in the billions band. -/
theorem format_market_cap_thresholds_witness :
    pyFloat "2500000000.00" = some (.finite ((25 : ℚ) * 10 ^ 8)) ∧
    format_market_cap (some "2500000000.00") = ("2.50", "B") := by
  have hp : pyFloat "2500000000.00" = some (.finite ((25 : ℚ) * 10 ^ 8)) := by
    with_unfolding_all rfl
  refine ⟨hp, ?_⟩
  have h := (format_market_cap_thresholds "2500000000.00" ((25 : ℚ) * 10 ^ 8) hp).2.1
    (by norm_num) (by norm_num)
  rw [h]
  with_unfolding_all rfl

/-- C5: format_market_cap is a total function, and a None, empty, or
unparseable input yields exactly the sentinel pair. -/
theorem format_market_cap_total (s : String) (h : pyFloat s = none) :
    format_market_cap none = ("N/A", "") ∧
    format_market_cap (some "") = ("N/A", "") ∧
    format_market_cap (some s) = ("N/A", "") := by
  refine ⟨rfl, by with_unfolding_all rfl, ?_⟩
  by_cases hs : s = ""
  · rw [hs]
    with_unfolding_all rfl
  · simp only [format_market_cap, if_neg hs, h]

/-- C5 witness: the totality statement instantiated at the non-numeric
input abc. -/
theorem format_market_cap_total_witness :
    pyFloat "abc" = none ∧ format_market_cap (some "abc") = ("N/A", "") := by
  have hp : pyFloat "abc" = none := by with_unfolding_all rfl
  exact ⟨hp, (format_market_cap_total "abc" hp).2.2⟩

/-- C6: for a record that is a nonempty dict carrying a symbol, the
emitted row resolves the name through the watchlist lookup entry when the
symbol is present there, else the record name field, else the sentinel,
and resolves the price through the price map entry, else the sentinel. -/
theorem merge_name_price_fallback (m : List (String × Option String))
    (p : List (String × String)) (entries : List (String × String)) (sym : String)
    (h1 : entries ≠ []) (h2 : alookup entries "symbol" = some sym) :
    (mergeRows m p [.fdict entries]).map OutputRow.name =
      [match alookup m sym with
       | some v => v
       | none => some ((alookup entries "name").getD "N/A")] ∧
    (mergeRows m p [.fdict entries]).map OutputRow.price = [(alookup p sym).getD "N/A"] := by
  constructor <;>
  · rw [mergeRows_eq_filterMap]
    simp [rowOf, h1, h2]

/-- C6 witness: the fallback statement instantiated where the watchlist
lookup carries the symbol, so its name wins over the sentinel. -/
theorem merge_name_price_fallback_witness :
    (mergeRows [("AAPL", some "Apple")] [] [.fdict [("symbol", "AAPL")]]).map
      OutputRow.name = [some "Apple"] ∧
    (mergeRows [("AAPL", some "Apple")] [] [.fdict [("symbol", "AAPL")]]).map
      OutputRow.price = ["N/A"] := by
  have h := merge_name_price_fallback [("AAPL", some "Apple")] [] [("symbol", "AAPL")] "AAPL"
    (by simp) (by decide)
  exact ⟨by simpa [alookup] using h.1, by simpa [alookup] using h.2⟩

/-- C7: when the run reaches the merge and the merge yields no rows, the
outcome is the empty-result error and the publish step is not invoked. -/
theorem empty_merge_empty_result (env : Env) (items funds : List FundRec)
    (hl : env.login = .lok) (hw : env.watch = .wlist items) (hne : items ≠ [])
    (hm : (instrumentMapOf items).map Prod.fst ≠ [])
    (hc : runChunks env.fund (chunksOf CHUNK_SIZE ((instrumentMapOf items).map Prod.fst)) =
      some funds)
    (hmerge : mergeRows (instrumentMapOf items)
      (fetch_latest_prices ((instrumentMapOf items).map Prod.fst) env.price) funds = []) :
    (export_24hr_market_to_csv_and_sheet env).outcome = .emptyResult ∧
    (export_24hr_market_to_csv_and_sheet env).publishCalled = false := by
  have hrun : export_24hr_market_to_csv_and_sheet env = ⟨.emptyResult, false, true⟩ := by
    simp only [export_24hr_market_to_csv_and_sheet, hl, hw]
    simp only [runFromInstruments, if_neg hne, if_neg hm, hc, if_pos hmerge]
  rw [hrun]
  exact ⟨rfl, rfl⟩

/-- C7 witness: the empty-result statement instantiated at the concrete
environment whose fundamentals chunks come back empty. -/
theorem empty_merge_empty_result_witness :
    (export_24hr_market_to_csv_and_sheet envEmpty).outcome = .emptyResult ∧
    (export_24hr_market_to_csv_and_sheet envEmpty).publishCalled = false :=
  empty_merge_empty_result envEmpty [.fdict [("symbol", "A")]] [] rfl rfl (by simp)
    (by decide) (by decide) (by decide)

/-- C8 counterexample: a provider market-cap string inf is parsed by the
float constructor to an infinity, compares at least a trillion, and is
published verbatim, so the run publishes the row with market-cap value
inf and unit T, which violates the schema invariant. -/
theorem export_schema_invariant_counterexample :
    (export_24hr_market_to_csv_and_sheet envInf).outcome =
      .published [⟨some "X", "A", "N/A", "inf", "T"⟩] ∧
    ¬schemaOk ⟨some "X", "A", "N/A", "inf", "T"⟩ := by
  constructor
  · with_unfolding_all rfl
  · intro h
    rcases h.2.1 with h | h
    · exact absurd h (by decide)
    · exact absurd h (by decide)

/-- C8 (amended): when every provider string avoids the non-finite float
class, that is, no market-cap field and no price entry parses to an
infinity or nan, every published row satisfies the output schema
invariant, and the published column order is the fixed five-column
order.  A string such as inf, nan, or an overflowing exponent is instead
rendered verbatim into the published row. -/
theorem export_schema_invariant (env : Env) (rows : List OutputRow)
    (hfin : envFinite env)
    (h : (export_24hr_market_to_csv_and_sheet env).outcome = .published rows) :
    outputColumns = ["Name", "Symbol", "Price", "Marketcap Value", "Marketcap Unit"] ∧
    ∀ r ∈ rows, schemaOk r := by
  refine ⟨rfl, ?_⟩
  obtain ⟨items, funds, hrc, hrows⟩ := export_published_inv env rows h
  intro r hr
  rw [hrows, mergeRows_eq_filterMap] at hr
  obtain ⟨f, hf, hrow⟩ := List.mem_filterMap.mp hr
  cases f with
  | fnone => simp [rowOf] at hrow
  | fnotdict => simp [rowOf] at hrow
  | fdict entries =>
    have hcapf : fundCapFinite (.fdict entries) = true := by
      obtain ⟨c, _, hmem⟩ := runChunks_mem env.fund _ funds hrc _ hf
      exact hfin.2 c _ hmem
    have hcap : ∀ s, alookup entries "market_cap" = some s → finiteParse s = true := by
      intro s hs
      simpa [fundCapFinite, hs] using hcapf
    by_cases he : entries = []
    · simp [rowOf, he] at hrow
    · simp only [rowOf, if_neg he, Option.some.injEq] at hrow
      subst hrow
      refine ⟨?_, format_market_cap_fst_ok _ hcap, format_market_cap_snd_mem _⟩
      cases hp : alookup (fetch_latest_prices ((instrumentMapOf items).map Prod.fst) env.price)
        ((alookup entries "symbol").getD "N/A") with
      | none => left; simp [hp]
      | some v =>
        have hv := fetch_latest_prices_value_ok _ _ _ _ hfin.1 (alookup_mem hp)
        simpa [hp] using hv

/-- C8 witness: the amended schema invariant instantiated at the
concrete environment that publishes a single row from finite-class
provider strings. -/
theorem export_schema_invariant_witness :
    outputColumns = ["Name", "Symbol", "Price", "Marketcap Value", "Marketcap Unit"] ∧
    ∀ r ∈ [(⟨some "X", "A", "N/A", "N/A", ""⟩ : OutputRow)], schemaOk r :=
  export_schema_invariant envPub [⟨some "X", "A", "N/A", "N/A", ""⟩]
    ⟨fun l hl => FetchResult.noConfusion hl,
      fun c f hf => by
        obtain rfl : f = FundRec.fdict [("symbol", "A")] := by
          simpa [normalizeChunk, envPub] using hf
        decide⟩
    (by with_unfolding_all rfl)

/-- C9: on every termination path of the run a logout is attempted, and a
failing logout changes nothing observable, because the inner try-except
swallows that secondary failure. -/
theorem logout_on_all_paths (env : Env) :
    (export_24hr_market_to_csv_and_sheet env).logoutAttempted = true ∧
    ∀ b : Bool,
      export_24hr_market_to_csv_and_sheet ⟨env.login, env.watch, env.price, env.fund, b⟩ =
        export_24hr_market_to_csv_and_sheet env := by
  refine ⟨export_logout env, ?_⟩
  intro b
  obtain ⟨lg, w, pr, fd, lf⟩ := env
  rfl

/-- C10: a nonempty dict record lacking a symbol key is still merged into
a row whose symbol is the literal sentinel, with name and price resolved
by looking the sentinel up in the watchlist lookup and price map, while
None, non-dict and empty-dict records are skipped. -/
theorem merge_missing_symbol (m : List (String × Option String)) (p : List (String × String))
    (entries : List (String × String)) (h1 : entries ≠ [])
    (h2 : alookup entries "symbol" = none) :
    (mergeRows m p [.fdict entries]).map OutputRow.symbol = ["N/A"] ∧
    (mergeRows m p [.fdict entries]).map OutputRow.name =
      [match alookup m "N/A" with
       | some v => v
       | none => some ((alookup entries "name").getD "N/A")] ∧
    (mergeRows m p [.fdict entries]).map OutputRow.price = [(alookup p "N/A").getD "N/A"] ∧
    mergeRows m p [.fnone] = [] ∧
    mergeRows m p [.fnotdict] = [] ∧
    mergeRows m p [.fdict []] = [] := by
  refine ⟨?_, ?_, ?_, rfl, rfl, rfl⟩ <;>
  · rw [mergeRows_eq_filterMap]
    simp [rowOf, h1, h2]

/-- C10 witness: the missing-symbol statement instantiated where the
sentinel key is itself present in the watchlist lookup and price map. -/
theorem merge_missing_symbol_witness :
    (mergeRows [("N/A", some "Weird")] [("N/A", "$9.99")] [.fdict [("x", "y")]]).map
      OutputRow.symbol = ["N/A"] ∧
    (mergeRows [("N/A", some "Weird")] [("N/A", "$9.99")] [.fdict [("x", "y")]]).map
      OutputRow.name = [some "Weird"] ∧
    (mergeRows [("N/A", some "Weird")] [("N/A", "$9.99")] [.fdict [("x", "y")]]).map
      OutputRow.price = ["$9.99"] := by
  have h := merge_missing_symbol [("N/A", some "Weird")] [("N/A", "$9.99")] [("x", "y")]
    (by simp) (by decide)
  exact ⟨h.1, by simpa [alookup] using h.2.1, by simpa [alookup] using h.2.2.1⟩

end RobinhoodExport
